import Mathlib

/- Shallow embedding of the EME archive extractor (EXEME.py) and the LZSS
   decompressor (lzss.py).  Byte buffers are lists of naturals; machine
   integers are naturals with explicit truncation where the source packs a
   value back into bytes.  Fallible operations return Option or carry an
   explicit success flag mirroring the exception behaviour of the source. -/

/-- Little-endian 32-bit value of four bytes, as struct.unpack with format <I
reads them. -/
def le32 (b0 b1 b2 b3 : Nat) : Nat :=
  b0 + 256 * b1 + 65536 * b2 + 16777216 * b3

/-- The four little-endian bytes of a 32-bit value, as struct.pack with
format <I writes them. -/
def le32Bytes (w : Nat) : List Nat :=
  [w % 256, w / 256 % 256, w / 65536 % 256, w / 16777216 % 256]

/-- Read of an unsigned little-endian 16-bit field at a byte offset. -/
def u16le (l : List Nat) (i : Nat) : Nat :=
  l.getD i 0 + 256 * l.getD (i + 1) 0

/-- Read of an unsigned little-endian 32-bit field at a byte offset. -/
def u32le (l : List Nat) (i : Nat) : Nat :=
  le32 (l.getD i 0) (l.getD (i + 1) 0) (l.getD (i + 2) 0) (l.getD (i + 3) 0)

/-- EmeArchive.shift_value: walk 32 source bits, advancing a running shift
accumulator by key before placing each bit, OR-ing source bit i into result
bit (shift mod 32). -/
def shift_value (val key : Nat) : Nat :=
  ((List.range 32).foldl
      (fun (p : Nat × Nat) i =>
        (p.1 + key, p.2 ||| (((val >>> i) &&& 1) <<< ((p.1 + key) % 32))))
      (0, 0)).2

/-- Closed form of the opcode-4 bit redistribution as the spec states it:
source bit b lands at result bit ((b+1)*key) mod 32. -/
def shiftValueSpec (val key : Nat) : Nat :=
  (List.range 32).foldl
    (fun r b => r ||| (((val >>> b) &&& 1) <<< (((b + 1) * key) % 32))) 0

/-- EmeArchive.init_table: cursor x starts at 0, steps x = (x + key) mod
length before each write, and source byte i is written to table[x]; the
region is replaced by the table. -/
def init_table (buffer : List Nat) (key : Nat) : List Nat :=
  ((List.range buffer.length).foldl
      (fun (p : Nat × List Nat) i =>
        ((p.1 + key) % buffer.length,
         p.2.set ((p.1 + key) % buffer.length) (buffer.getD i 0)))
      (0, List.replicate buffer.length 0)).2

/-- Closed form of the opcode-8 byte permutation as the spec states it:
source byte i is written to destination ((i+1)*key) mod length, later writes
overwriting earlier ones. -/
def initTableSpec (buffer : List Nat) (key : Nat) : List Nat :=
  (List.range buffer.length).foldl
    (fun t i => t.set (((i + 1) * key) % buffer.length) (buffer.getD i 0))
    (List.replicate buffer.length 0)

/-- Opcode 1 of EmeArchive.decrypt: XOR every little-endian 32-bit word with
the constant stage key, left to right.  A trailing fragment shorter than a
word is left as is (at all call sites the region length is a multiple of 4). -/
def xorWords (key : Nat) : List Nat → List Nat
  | b0 :: b1 :: b2 :: b3 :: rest =>
      le32Bytes (le32 b0 b1 b2 b3 ^^^ key) ++ xorWords key rest
  | rest => rest

/-- Opcode 2 of EmeArchive.decrypt: XOR each little-endian word with a
running key that is replaced, after each word, by that word's pre-transform
value. -/
def chainWords (key : Nat) : List Nat → List Nat
  | b0 :: b1 :: b2 :: b3 :: rest =>
      le32Bytes (le32 b0 b1 b2 b3 ^^^ key) ++ chainWords (le32 b0 b1 b2 b3) rest
  | rest => rest

/-- Opcode 4 of EmeArchive.decrypt: replace each little-endian word v by
shift_value v key. -/
def shiftWords (key : Nat) : List Nat → List Nat
  | b0 :: b1 :: b2 :: b3 :: rest =>
      le32Bytes (shift_value (le32 b0 b1 b2 b3) key) ++ shiftWords key rest
  | rest => rest

/-- One round of EmeArchive.decrypt: dispatch on the stage opcode; an opcode
outside 1, 2, 4, 8 matches no branch and leaves the region unchanged. -/
def stageOp (op key : Nat) (data : List Nat) : List Nat :=
  if op = 1 then xorWords key data
  else if op = 2 then chainWords key data
  else if op = 4 then shiftWords key data
  else if op = 8 then init_table data key
  else data

/-- EmeArchive.decrypt: key_index starts at len(routine) and is decremented
by 4 before each round; stage index i runs from 7 down to 0, each round
reading its key dword at key_index and its opcode at routine[i], mutating the
region in place before the next round. -/
def decrypt (data routine : List Nat) : List Nat :=
  (((List.range 8).reverse).foldl
      (fun (p : Nat × List Nat) i =>
        (p.1 - 4, stageOp (routine.getD i 0) (u32le routine (p.1 - 4)) p.2))
      (routine.length, data)).2

/-- get_null_terminated_string: bytes of the name up to the first NUL, or
the whole window when no NUL occurs (utf-8 decoding elided). -/
def cutAtNull : List Nat → List Nat
  | [] => []
  | b :: rest => if b = 0 then [] else b :: cutAtNull rest

/-- One catalog entry of the archive (dataclass EmEntry). -/
structure EmEntry where
  name : List Nat
  offset : Nat
  size : Nat
  unpacked_size : Nat
  lzss_frame_size : Nat
  lzss_init_pos : Nat
  sub_type : Nat
  is_packed : Bool
deriving DecidableEq

/-- Parsing of one decrypted 0x60-byte index slot inside EmeArchive.open.
The struct.unpack_from calls fail on a slot shorter than 0x58 bytes, which
the surrounding open catches; this is modelled as none. -/
def parseSlot (slot : List Nat) : Option EmEntry :=
  if 0x58 ≤ slot.length then
    some
      { name := cutAtNull (slot.take 0x40)
        offset := u32le slot 0x54
        size := u32le slot 0x4C
        unpacked_size := u32le slot 0x50
        lzss_frame_size := u16le slot 0x40
        lzss_init_pos :=
          if u16le slot 0x40 ≠ 0 then
            (((u16le slot 0x40 : Int) - (u16le slot 0x42 : Int))
              % (u16le slot 0x40 : Int)).toNat
          else u16le slot 0x42
        sub_type := u32le slot 0x48
        is_packed := u32le slot 0x50 != u32le slot 0x4C }
  else none

/-- The entry loop of EmeArchive.open: decrypt each 0x60-byte slot in place,
parse it, and append the entry.  A parse failure aborts with the entries
accumulated so far (they stay on the archive object), flagged false. -/
def parseLoop (key indexData : List Nat) : Nat → Nat → List EmEntry → Bool × List EmEntry
  | 0, _, acc => (true, acc)
  | n + 1, off, acc =>
      match parseSlot (decrypt ((indexData.drop off).take 0x60) key) with
      | none => (false, acc)
      | some e => parseLoop key indexData n (off + 0x60) (acc ++ [e])

/-- The byte values of the signature b"RRED". -/
def emeSig : List Nat := [0x52, 0x52, 0x45, 0x44]

/-- The byte values of the second magic b"ATA ". -/
def emeSig2 : List Nat := [0x41, 0x54, 0x41, 0x20]

/-- EmeArchive.open on the whole file image: magic checks, trailing entry
count, sanity ceiling, seek guard (a negative seek for the 40-byte key
raises, caught as failure), then the slot loop.  The flag is the boolean
open returns; the list is the entries field of the archive afterwards. -/
def emeOpen (file : List Nat) : Bool × List EmEntry :=
  if file.take 4 ≠ emeSig then (false, [])
  else if (file.drop 4).take 4 ≠ emeSig2 then (false, [])
  else if 10000 < u32le file (file.length - 4) then (false, [])
  else if file.length < 44 + u32le file (file.length - 4) * 0x60 then (false, [])
  else
    parseLoop
      ((file.drop (file.length - 4 - u32le file (file.length - 4) * 0x60 - 40)).take 40)
      ((file.drop (file.length - 4 - u32le file (file.length - 4) * 0x60)).take
        (u32le file (file.length - 4) * 0x60))
      (u32le file (file.length - 4)) 0 []

/-- The compressed branch of EmeArchive._extract_script (entry with nonzero
lzss_frame_size), over the decrypted 12-byte header, the file bytes following
the header, the entry's stored and raw sizes, and the decompressor.  A read
of a negative count (packed size beyond stored size) reads to end of file, as
Python file.read does. -/
def extractScriptCompressed (header fileTail : List Nat) (storedSize rawSize : Nat)
    (dec : List Nat → List Nat) : List Nat :=
  if u32le header 4 ≠ 0 ∧ u32le header 4 < rawSize then
    (dec (if u32le header 0 ≤ storedSize then
            (fileTail.drop (u32le header 0)).take (storedSize - u32le header 0)
          else fileTail.drop (u32le header 0))).take (rawSize - u32le header 4)
      ++ dec (fileTail.take (u32le header 0))
  else
    dec (fileTail.take storedSize)

/-- Top-level names a Python module can bind, for the import analysis. -/
inductive LzssName
  | LzssMode
  | LzssSettings
  | LzssCoroutine
  | LzssStream
  | LzssReader
  | decompress
  | LZSSError
deriving DecidableEq

/-- The top-level names defined by module lzss (lzss.py). -/
def lzssModuleNames : List LzssName :=
  [LzssName.LzssMode, LzssName.LzssSettings, LzssName.LzssCoroutine,
   LzssName.LzssStream, LzssName.LzssReader]

/-- The names EXEME.py imports from module lzss. -/
def exemeImportedNames : List LzssName :=
  [LzssName.decompress, LzssName.LZSSError]

/-- Whether the from-import at the top of EXEME.py resolves: every imported
name must be bound by the lzss module. -/
def exemeImportResolves : Bool :=
  exemeImportedNames.all (fun n => lzssModuleNames.contains n)

/-- LzssSettings of lzss.py. -/
structure LzssSettings where
  frame_size : Nat
  frame_fill : Nat
  frame_init_pos : Nat

/-- The default settings built by LzssSettings.__init__. -/
def lzssSettings : LzssSettings := ⟨0x1000, 0, 0xFEE⟩

/-- The frame mask frame_size - 1 used by LzssCoroutine.unpack. -/
def coFrameMask : Nat := lzssSettings.frame_size - 1

/-- State of LzssCoroutine.unpack: remaining input, history frame, frame
write cursor, output buffer. -/
structure CoState where
  inp : List Nat
  frame : List Nat
  framePos : Nat
  out : List Nat

/-- The match-copy loop of LzssCoroutine.unpack: copy count bytes one at a
time from history, each written back into the frame at the cursor and
appended to the output.  No input is read. -/
def coCopy : Nat → Nat → List Nat → Nat → List Nat → List Nat × Nat × List Nat
  | 0, _, frame, framePos, out => (frame, framePos, out)
  | n + 1, off, frame, framePos, out =>
      coCopy n (off + 1)
        (frame.set (framePos &&& coFrameMask) (frame.getD (off &&& coFrameMask) 0))
        (framePos + 1)
        (out ++ [frame.getD (off &&& coFrameMask) 0])

/-- The 8-bit inner loop of LzssCoroutine.unpack.  The flag is true when the
generator returned because the input ran out mid-sequence. -/
def coBits : List Nat → Nat → CoState → CoState × Bool
  | [], _, st => (st, false)
  | bit :: bits, ctl, st =>
      if ctl &&& (1 <<< bit) ≠ 0 then
        match st.inp with
        | [] => (st, true)
        | b :: inp2 =>
            coBits bits ctl
              ⟨inp2, st.frame.set (st.framePos &&& coFrameMask) b, st.framePos + 1,
               st.out ++ [b]⟩
      else
        match st.inp with
        | lo :: hi :: inp2 =>
            coBits bits ctl
              ⟨inp2,
               (coCopy (3 + (hi &&& 0xF)) (((hi &&& 0xF0) <<< 4) ||| lo)
                 st.frame st.framePos st.out).1,
               (coCopy (3 + (hi &&& 0xF)) (((hi &&& 0xF0) <<< 4) ||| lo)
                 st.frame st.framePos st.out).2.1,
               (coCopy (3 + (hi &&& 0xF)) (((hi &&& 0xF0) <<< 4) ||| lo)
                 st.frame st.framePos st.out).2.2⟩
        | _ => (st, true)

/-- The outer control-byte loop of LzssCoroutine.unpack.  Each iteration
consumes at least the control byte, so fuel equal to the input length is
never exhausted before the input is. -/
def coLoop : Nat → CoState → List Nat
  | 0, st => st.out
  | fuel + 1, st =>
      match st.inp with
      | [] => st.out
      | ctl :: inp2 =>
          match coBits [0, 1, 2, 3, 4, 5, 6, 7] ctl ⟨inp2, st.frame, st.framePos, st.out⟩ with
          | (st2, true) => st2.out
          | (st2, false) => coLoop fuel st2

/-- LzssCoroutine.unpack driven to completion: a 4096-byte frame filled with
the fill byte, write cursor at frame_init_pos, decoding until the input is
exhausted (the internal length counter starts at 0 and only decreases, so
the generator never suspends). -/
def coUnpack (input : List Nat) : List Nat :=
  coLoop input.length
    ⟨input, List.replicate lzssSettings.frame_size lzssSettings.frame_fill,
     lzssSettings.frame_init_pos, []⟩

/-- The frame mask of LzssReader. -/
def rdFrameMask : Nat := 0x1000 - 1

/-- State of LzssReader.unpack: remaining input bytes, the remaining counter
tracking the declared input length, history frame, frame cursor, fixed-size
output buffer and its write position. -/
structure RdState where
  inp : List Nat
  remaining : Nat
  frame : List Nat
  framePos : Nat
  output : List Nat
  dst : Nat

/-- The match-copy loop of LzssReader.unpack, breaking out when the output
buffer is full. -/
def rdCopy : Nat → Nat → RdState → RdState
  | 0, _, st => st
  | n + 1, off, st =>
      if st.output.length ≤ st.dst then st
      else
        rdCopy n ((off + 1) &&& rdFrameMask)
          ⟨st.inp, st.remaining, st.frame.set st.framePos (st.frame.getD off 0),
           (st.framePos + 1) &&& rdFrameMask,
           st.output.set st.dst (st.frame.getD off 0), st.dst + 1⟩

/-- The 8-bit inner loop of LzssReader.unpack.  The flag is false when the
method returned: output full, remaining exhausted mid-group, or a read past
the actual input (an IndexError or short read in the source). -/
def rdBits : List Nat → Nat → RdState → RdState × Bool
  | [], _, st => (st, true)
  | bit :: bits, ctl, st =>
      if st.output.length ≤ st.dst then (st, false)
      else if ctl &&& (1 <<< bit) ≠ 0 then
        if st.remaining = 0 then (st, false)
        else
          match st.inp with
          | [] => (st, false)
          | b :: inp2 =>
              rdBits bits ctl
                ⟨inp2, st.remaining - 1, st.frame.set st.framePos b,
                 (st.framePos + 1) &&& rdFrameMask, st.output.set st.dst b, st.dst + 1⟩
      else
        if st.remaining < 2 then (st, false)
        else
          match st.inp with
          | lo :: hi :: inp2 =>
              rdBits bits ctl
                (rdCopy (3 + (hi &&& 0xF)) (((hi &&& 0xF0) <<< 4) ||| lo)
                  ⟨inp2, st.remaining - 2, st.frame, st.framePos, st.output, st.dst⟩)
          | _ => (st, false)

/-- The outer while-loop of LzssReader.unpack, running while remaining > 0;
each iteration consumes at least one from remaining, so fuel equal to the
declared size suffices. -/
def rdLoop : Nat → RdState → List Nat
  | 0, st => st.output
  | fuel + 1, st =>
      if st.remaining = 0 then st.output
      else
        match st.inp with
        | [] => st.output
        | ctl :: inp2 =>
            match rdBits [0, 1, 2, 3, 4, 5, 6, 7] ctl
                ⟨inp2, st.remaining - 1, st.frame, st.framePos, st.output, st.dst⟩ with
            | (st2, true) => rdLoop fuel st2
            | (st2, false) => st2.output

/-- LzssReader.unpack: a 0x1000-byte zero frame with cursor 0xFEE, a
fixed-size zero output buffer of the requested output length, decoding the
given input bytes under the declared input size. -/
def readerUnpack (input : List Nat) (size outLen : Nat) : List Nat :=
  rdLoop size ⟨input, size, List.replicate 0x1000 0, 0xFEE, List.replicate outLen 0, 0⟩

/-- Words of a byte list, little-endian, for the word-level statement of the
opcode-2 stage. -/
def bytesToWords : List Nat → List Nat
  | b0 :: b1 :: b2 :: b3 :: rest => le32 b0 b1 b2 b3 :: bytesToWords rest
  | _ => []

/-- Bytes of a word list, little-endian. -/
def wordsToBytes : List Nat → List Nat
  | [] => []
  | w :: ws => le32Bytes w ++ wordsToBytes ws

/-- The spec's description of the opcode-2 stage on words: each word is
XORed with the running key, and the running key becomes the word's
pre-transform value. -/
def chainSpecWords (key : Nat) : List Nat → List Nat
  | [] => []
  | w :: ws => (w ^^^ key) :: chainSpecWords w ws

/-- Sample decrypted index slot for the descriptor-invariant witness: frame
size 0x1000 at offset 0x40, raw init position 0x12 at offset 0x42. -/
def sampleSlot : List Nat := ((List.replicate 0x60 0).set 0x41 0x10).set 0x42 0x12

/-- The entry parseSlot builds from sampleSlot. -/
def sampleEntry : EmEntry :=
  { name := [], offset := 0, size := 0, unpacked_size := 0,
    lzss_frame_size := 0x1000, lzss_init_pos := 0xFEE, sub_type := 0,
    is_packed := false }

/-- Reading back the four packed bytes of a 32-bit value recovers it. -/
theorem le32_le32Bytes (w : Nat) (h : w < 4294967296) :
    le32 (w % 256) (w / 256 % 256) (w / 65536 % 256) (w / 16777216 % 256) = w := by
  unfold le32
  omega

/-- Packing the 32-bit value of four bytes yields those bytes. -/
theorem le32Bytes_le32 (b0 b1 b2 b3 : Nat) (h0 : b0 < 256) (h1 : b1 < 256)
    (h2 : b2 < 256) (h3 : b3 < 256) :
    le32Bytes (le32 b0 b1 b2 b3) = [b0, b1, b2, b3] := by
  unfold le32Bytes le32
  have e0 : (b0 + 256 * b1 + 65536 * b2 + 16777216 * b3) % 256 = b0 := by omega
  have e1 : (b0 + 256 * b1 + 65536 * b2 + 16777216 * b3) / 256 % 256 = b1 := by omega
  have e2 : (b0 + 256 * b1 + 65536 * b2 + 16777216 * b3) / 65536 % 256 = b2 := by omega
  have e3 : (b0 + 256 * b1 + 65536 * b2 + 16777216 * b3) / 16777216 % 256 = b3 := by omega
  rw [e0, e1, e2, e3]

/-- The opcode-1 stage preserves the region length. -/
theorem xorWords_length (key : Nat) : ∀ l : List Nat, (xorWords key l).length = l.length
  | b0 :: b1 :: b2 :: b3 :: rest => by
      simp [xorWords, le32Bytes, xorWords_length key rest]
  | [] => rfl
  | [_] => rfl
  | [_, _] => rfl
  | [_, _, _] => rfl

/-- The opcode-2 stage preserves the region length. -/
theorem chainWords_length : ∀ (key : Nat) (l : List Nat), (chainWords key l).length = l.length
  | key, b0 :: b1 :: b2 :: b3 :: rest => by
      simp [chainWords, le32Bytes, chainWords_length (le32 b0 b1 b2 b3) rest]
  | _, [] => rfl
  | _, [_] => rfl
  | _, [_, _] => rfl
  | _, [_, _, _] => rfl

/-- The opcode-4 stage preserves the region length. -/
theorem shiftWords_length (key : Nat) : ∀ l : List Nat, (shiftWords key l).length = l.length
  | b0 :: b1 :: b2 :: b3 :: rest => by
      simp [shiftWords, le32Bytes, shiftWords_length key rest]
  | [] => rfl
  | [_] => rfl
  | [_, _] => rfl
  | [_, _, _] => rfl

/-- The opcode-8 stage preserves the region length. -/
theorem init_table_length (buffer : List Nat) (key : Nat) :
    (init_table buffer key).length = buffer.length := by
  have h : ∀ (l : List Nat) (p : Nat × List Nat), p.2.length = buffer.length →
      ((l.foldl
        (fun (p : Nat × List Nat) i =>
          ((p.1 + key) % buffer.length,
           p.2.set ((p.1 + key) % buffer.length) (buffer.getD i 0))) p).2).length
        = buffer.length := by
    intro l
    induction l with
    | nil => intro p hp; simpa using hp
    | cons a l ih => intro p hp; exact ih _ (by simpa using hp)
  unfold init_table
  exact h _ _ (by simp)

/-- Every cipher stage preserves the region length. -/
theorem stageOp_length (op key : Nat) (d : List Nat) : (stageOp op key d).length = d.length := by
  unfold stageOp
  split_ifs <;>
    simp [xorWords_length, chainWords_length, shiftWords_length, init_table_length]

/-- The full 8-round decrypt preserves the region length. -/
theorem decrypt_length (data routine : List Nat) : (decrypt data routine).length = data.length := by
  have h : ∀ (l : List Nat) (p : Nat × List Nat),
      (((l.foldl
        (fun (p : Nat × List Nat) i =>
          (p.1 - 4, stageOp (routine.getD i 0) (u32le routine (p.1 - 4)) p.2)) p)).2).length
        = p.2.length := by
    intro l
    induction l with
    | nil => intro p; rfl
    | cons a l ih =>
        intro p
        rw [List.foldl_cons, ih]
        exact stageOp_length _ _ _
  unfold decrypt
  exact h _ _

/-- The running shift accumulator of shift_value equals step-count times key,
so each source bit b is placed at ((b+1)*key) mod 32. -/
theorem shift_fold_aux (val key : Nat) : ∀ (n s r : Nat),
    (((List.range' s n).foldl
        (fun (p : Nat × Nat) i =>
          (p.1 + key, p.2 ||| (((val >>> i) &&& 1) <<< ((p.1 + key) % 32))))
        (s * key, r))).2
      = (List.range' s n).foldl
          (fun r2 b => r2 ||| (((val >>> b) &&& 1) <<< (((b + 1) * key) % 32))) r
  | 0, s, r => rfl
  | n + 1, s, r => by
      rw [List.range'_succ]
      simp only [List.foldl_cons]
      have h1 : s * key + key = (s + 1) * key := by ring
      rw [h1]
      exact shift_fold_aux val key n (s + 1)
        (r ||| (((val >>> s) &&& 1) <<< (((s + 1) * key) % 32)))

/-- shift_value agrees with the spec's closed form. -/
theorem shift_value_spec_eq (val key : Nat) : shift_value val key = shiftValueSpec val key := by
  unfold shift_value shiftValueSpec
  rw [List.range_eq_range']
  have h := shift_fold_aux val key 32 0 0
  simpa using h

/-- The cursor of init_table equals step-count times key mod length, so
source byte i is written to ((i+1)*key) mod length. -/
theorem table_fold_aux (buffer : List Nat) (key L : Nat) : ∀ (n s : Nat) (t : List Nat),
    (((List.range' s n).foldl
        (fun (p : Nat × List Nat) i =>
          ((p.1 + key) % L, p.2.set ((p.1 + key) % L) (buffer.getD i 0)))
        (s * key % L, t))).2
      = (List.range' s n).foldl
          (fun t2 i => t2.set (((i + 1) * key) % L) (buffer.getD i 0)) t
  | 0, s, t => rfl
  | n + 1, s, t => by
      rw [List.range'_succ]
      simp only [List.foldl_cons]
      have h1 : (s * key % L + key) % L = (s + 1) * key % L := by
        rw [Nat.mod_add_mod]
        congr 1
        ring
      rw [h1]
      exact table_fold_aux buffer key L n (s + 1)
        (t.set ((s + 1) * key % L) (buffer.getD s 0))

/-- init_table agrees with the spec's closed form. -/
theorem init_table_spec_eq (buffer : List Nat) (key : Nat) (h : 0 < buffer.length) :
    init_table buffer key = initTableSpec buffer key := by
  unfold init_table initTableSpec
  rw [List.range_eq_range']
  have h2 := table_fold_aux buffer key buffer.length buffer.length 0
    (List.replicate buffer.length 0)
  simpa using h2

/-- chainWords on a whole-word region equals the word-level chained XOR the
spec describes. -/
theorem chainWords_spec : ∀ (key : Nat) (data : List Nat), data.length % 4 = 0 →
    chainWords key data = wordsToBytes (chainSpecWords key (bytesToWords data))
  | key, [], _ => rfl
  | key, b0 :: b1 :: b2 :: b3 :: rest, h => by
      have hr : rest.length % 4 = 0 := by simp at h; omega
      simp [chainWords, bytesToWords, chainSpecWords, wordsToBytes,
        chainWords_spec (le32 b0 b1 b2 b3) rest hr]
  | _, [_], h => by simp at h
  | _, [_, _], h => by simp at h
  | _, [_, _, _], h => by simp at h

/-- XOR of every word with a constant 32-bit key is an involution on byte
regions whose length is a multiple of 4. -/
theorem xorWords_involution : ∀ (key : Nat) (data : List Nat),
    (∀ b ∈ data, b < 256) → key < 4294967296 → data.length % 4 = 0 →
    xorWords key (xorWords key data) = data
  | key, [], _, _, _ => rfl
  | key, b0 :: b1 :: b2 :: b3 :: rest, hb, hk, hlen => by
      have hb0 : b0 < 256 := hb b0 (by simp)
      have hb1 : b1 < 256 := hb b1 (by simp)
      have hb2 : b2 < 256 := hb b2 (by simp)
      have hb3 : b3 < 256 := hb b3 (by simp)
      have hv : le32 b0 b1 b2 b3 < 4294967296 := by unfold le32; omega
      have hw : le32 b0 b1 b2 b3 ^^^ key < 4294967296 := by
        have h32 : (4294967296 : Nat) = 2 ^ 32 := by norm_num
        rw [h32] at hv hk ⊢
        exact Nat.xor_lt_two_pow hv hk
      have hrest : rest.length % 4 = 0 := by simp at hlen; omega
      have hbrest : ∀ b ∈ rest, b < 256 := fun b hmem => hb b (by simp [hmem])
      have step1 : xorWords key (b0 :: b1 :: b2 :: b3 :: rest)
          = le32Bytes (le32 b0 b1 b2 b3 ^^^ key) ++ xorWords key rest := rfl
      rw [step1]
      unfold le32Bytes
      rw [show ((le32 b0 b1 b2 b3 ^^^ key) % 256 :: (le32 b0 b1 b2 b3 ^^^ key) / 256 % 256 ::
            (le32 b0 b1 b2 b3 ^^^ key) / 65536 % 256 ::
            (le32 b0 b1 b2 b3 ^^^ key) / 16777216 % 256 :: []) ++ xorWords key rest
          = (le32 b0 b1 b2 b3 ^^^ key) % 256 :: (le32 b0 b1 b2 b3 ^^^ key) / 256 % 256 ::
            (le32 b0 b1 b2 b3 ^^^ key) / 65536 % 256 ::
            (le32 b0 b1 b2 b3 ^^^ key) / 16777216 % 256 :: xorWords key rest from rfl]
      rw [show xorWords key ((le32 b0 b1 b2 b3 ^^^ key) % 256 ::
            (le32 b0 b1 b2 b3 ^^^ key) / 256 % 256 ::
            (le32 b0 b1 b2 b3 ^^^ key) / 65536 % 256 ::
            (le32 b0 b1 b2 b3 ^^^ key) / 16777216 % 256 :: xorWords key rest)
          = le32Bytes (le32 ((le32 b0 b1 b2 b3 ^^^ key) % 256)
              ((le32 b0 b1 b2 b3 ^^^ key) / 256 % 256)
              ((le32 b0 b1 b2 b3 ^^^ key) / 65536 % 256)
              ((le32 b0 b1 b2 b3 ^^^ key) / 16777216 % 256) ^^^ key)
            ++ xorWords key (xorWords key rest) from rfl]
      rw [le32_le32Bytes _ hw, Nat.xor_cancel_right,
        le32Bytes_le32 b0 b1 b2 b3 hb0 hb1 hb2 hb3,
        xorWords_involution key rest hbrest hk hrest]
      rfl
  | _, [_], _, _, hlen => by simp at hlen
  | _, [_, _], _, _, hlen => by simp at hlen
  | _, [_, _, _], _, _, hlen => by simp at hlen

/-- A slot long enough for every unpack_from field parses successfully. -/
theorem parseSlot_isSome (slot : List Nat) (h : 0x58 ≤ slot.length) :
    ∃ e, parseSlot slot = some e := by
  unfold parseSlot
  rw [if_pos h]
  exact ⟨_, rfl⟩

/-- When the index region holds all its slots in full, the entry loop parses
every slot and succeeds. -/
theorem parseLoop_complete (key idx : List Nat) :
    ∀ (n off : Nat) (acc : List EmEntry), off + n * 0x60 ≤ idx.length →
      (parseLoop key idx n off acc).1 = true := by
  intro n
  induction n with
  | zero => intro off acc h; rfl
  | succ n ih =>
      intro off acc h
      have hslot : (decrypt ((idx.drop off).take 0x60) key).length = 0x60 := by
        rw [decrypt_length]
        simp only [List.length_take, List.length_drop]
        omega
      obtain ⟨e, he⟩ := parseSlot_isSome _ (by rw [hslot]; norm_num)
      unfold parseLoop
      rw [he]
      exact ih (off + 0x60) (acc ++ [e]) (by omega)

/-- The split branch of the script extractor, under the actual split
condition of the code and a packed size within the stored region. -/
theorem extractScriptCompressed_split (header fileTail : List Nat) (storedSize rawSize : Nat)
    (dec : List Nat → List Nat) (h0 : 0 < u32le header 4) (h1 : u32le header 4 < rawSize)
    (h2 : u32le header 0 ≤ storedSize) :
    extractScriptCompressed header fileTail storedSize rawSize dec
      = (dec ((fileTail.drop (u32le header 0)).take (storedSize - u32le header 0))).take
          (rawSize - u32le header 4)
        ++ dec (fileTail.take (u32le header 0)) := by
  unfold extractScriptCompressed
  rw [if_pos ⟨by omega, h1⟩, if_pos h2]

/-- C1: the from-import at the top of EXEME.py names decompress and
LZSSError, neither of which module lzss binds (it defines only LzssMode,
LzssSettings, LzssCoroutine, LzssStream and LzssReader), so the import does
not resolve and every run of the extractor fails before any container is
opened. -/
theorem eme_import_fails :
    exemeImportResolves = false
    ∧ lzssModuleNames.contains LzssName.decompress = false
    ∧ lzssModuleNames.contains LzssName.LZSSError = false := by
  decide

/-- C3: for a 40-byte key, decrypt runs exactly eight rounds with stage
index i from 7 down to 0 folded over the region, round i reading its
little-endian key dword at offset 8 + 4*i of the key material and its opcode
at key[i]; and a round whose opcode is outside 1, 2, 4, 8 leaves the region
unchanged, raising no error. -/
theorem eme_decrypt_stage_schedule (data routine : List Nat) (h : routine.length = 40)
    (op key : Nat) (d : List Nat)
    (n1 : op ≠ 1) (n2 : op ≠ 2) (n4 : op ≠ 4) (n8 : op ≠ 8) :
    decrypt data routine
      = List.foldl
          (fun d2 i => stageOp (routine.getD i 0) (u32le routine (8 + 4 * i)) d2)
          data [7, 6, 5, 4, 3, 2, 1, 0]
    ∧ stageOp op key d = d := by
  constructor
  · unfold decrypt
    rw [h]
    rfl
  · unfold stageOp
    rw [if_neg n1, if_neg n2, if_neg n4, if_neg n8]

/-- Witness for C3 at a concrete 40-byte key, region and no-op opcode. -/
theorem eme_decrypt_stage_schedule_witness :
    decrypt [1, 2, 3] (List.replicate 40 0)
      = List.foldl
          (fun d2 i =>
            stageOp ((List.replicate 40 0).getD i 0) (u32le (List.replicate 40 0) (8 + 4 * i)) d2)
          [1, 2, 3] [7, 6, 5, 4, 3, 2, 1, 0]
    ∧ stageOp 3 5 [6, 7, 8] = [6, 7, 8] :=
  eme_decrypt_stage_schedule [1, 2, 3] (List.replicate 40 0) (by decide) 3 5 [6, 7, 8]
    (by decide) (by decide) (by decide) (by decide)

/-- C4: whenever open fails - magic mismatch, entry count over the ceiling,
truncated reads modelled as the negative-seek guard, or a slot parse failure
inside the loop - the archive's entry sequence is empty; no partial catalog
survives a failed open (the loop in fact never fails once the index region
was read, because that region always holds all its slots in full). -/
theorem eme_open_no_partial_catalog (file : List Nat) (h : (emeOpen file).1 = false) :
    (emeOpen file).2 = [] := by
  unfold emeOpen at h ⊢
  split_ifs at h ⊢ with h1 h2 h3 h4
  · rfl
  · rfl
  · rfl
  · rfl
  · exfalso
    have hlen : ((file.drop (file.length - 4 - u32le file (file.length - 4) * 0x60)).take
        (u32le file (file.length - 4) * 0x60)).length
          = u32le file (file.length - 4) * 0x60 := by
      simp only [List.length_take, List.length_drop]
      omega
    have hdone := parseLoop_complete
      ((file.drop (file.length - 4 - u32le file (file.length - 4) * 0x60 - 40)).take 40)
      ((file.drop (file.length - 4 - u32le file (file.length - 4) * 0x60)).take
        (u32le file (file.length - 4) * 0x60))
      (u32le file (file.length - 4)) 0 [] (by rw [hlen]; omega)
    rw [hdone] at h
    exact Bool.true_eq_false.mp h

/-- Witness for C4 on the empty file, which fails the signature check. -/
theorem eme_open_no_partial_catalog_witness :
    (emeOpen []).1 = false ∧ (emeOpen []).2 = [] :=
  ⟨by decide, eme_open_no_partial_catalog [] (by decide)⟩

/-- C5: the opcode-4 stage maps each 32-bit word through shift_value, whose
OR-accumulation places source bit b at result bit ((b+1)*key) mod 32 and
merges bits when gcd(key,32) is not 1 (witnessed by a concrete collision at
key 2); the opcode-8 stage permutes the whole region, writing source byte i
to the cursor stepped as x = (x+key) mod length from 0, i.e. to destination
((i+1)*key) mod length, later writes overwriting earlier ones when
gcd(key,length) is not 1 (witnessed at key 2, length 4); neither operation
guards bijectivity. -/
theorem eme_lossy_permutation_stages :
    (∀ key d, stageOp 4 key d = shiftWords key d)
    ∧ (∀ key d, stageOp 8 key d = init_table d key)
    ∧ (∀ val key : Nat, shift_value val key = shiftValueSpec val key)
    ∧ (shift_value 1 2 = shift_value 65536 2 ∧ (1 : Nat) ≠ 65536 ∧ Nat.gcd 2 32 ≠ 1)
    ∧ (∀ (buffer : List Nat) (key : Nat), 0 < buffer.length →
        init_table buffer key = initTableSpec buffer key)
    ∧ (init_table [1, 2, 3, 4] 2 = init_table [5, 6, 3, 4] 2
       ∧ ([1, 2, 3, 4] : List Nat) ≠ [5, 6, 3, 4] ∧ Nat.gcd 2 4 ≠ 1) := by
  refine ⟨?_, ?_, shift_value_spec_eq, by decide, init_table_spec_eq, by decide⟩
  · intro key d
    unfold stageOp
    rw [if_neg (by decide), if_neg (by decide), if_pos rfl]
  · intro key d
    unfold stageOp
    rw [if_neg (by decide), if_neg (by decide), if_neg (by decide), if_pos rfl]

/-- Witness for C5 at concrete stage keys and a concrete nonempty region. -/
theorem eme_lossy_permutation_stages_witness :
    stageOp 4 3 [9, 8, 7, 6] = shiftWords 3 [9, 8, 7, 6]
    ∧ shift_value 5 7 = shiftValueSpec 5 7
    ∧ 0 < ([9, 8, 7, 6] : List Nat).length
    ∧ init_table [9, 8, 7, 6] 3 = initTableSpec [9, 8, 7, 6] 3 :=
  ⟨eme_lossy_permutation_stages.1 3 [9, 8, 7, 6],
   eme_lossy_permutation_stages.2.2.1 5 7,
   by decide,
   eme_lossy_permutation_stages.2.2.2.2.1 [9, 8, 7, 6] 3 (by decide)⟩

/-- C6: on a region whose length is a multiple of 4, the opcode-2 stage
rewrites 32-bit little-endian words left to right, each word becoming word
XOR runningKey, where runningKey starts as the stage key and after each word
becomes that word's pre-transform value. -/
theorem eme_opcode2_chained_xor (data : List Nat) (key : Nat) (h : data.length % 4 = 0) :
    stageOp 2 key data = wordsToBytes (chainSpecWords key (bytesToWords data)) := by
  have h2 : stageOp 2 key data = chainWords key data := by
    unfold stageOp
    rw [if_neg (by decide), if_pos rfl]
  rw [h2]
  exact chainWords_spec key data h

/-- Witness for C6 on a concrete two-word region. -/
theorem eme_opcode2_chained_xor_witness :
    stageOp 2 7 [1, 0, 0, 0, 2, 0, 0, 0]
      = wordsToBytes (chainSpecWords 7 (bytesToWords [1, 0, 0, 0, 2, 0, 0, 0])) :=
  eme_opcode2_chained_xor [1, 0, 0, 0, 2, 0, 0, 0] 7 (by decide)

/-- C10: applying the opcode-1 stage (XOR of every 32-bit little-endian word
with the constant stage key) twice with the same 32-bit key on a byte region
whose length is a multiple of 4 restores the original bytes. -/
theorem eme_opcode1_involution (data : List Nat) (key : Nat)
    (hb : ∀ b ∈ data, b < 256) (hk : key < 4294967296) (hlen : data.length % 4 = 0) :
    stageOp 1 key (stageOp 1 key data) = data := by
  have h1 : ∀ d, stageOp 1 key d = xorWords key d := by
    intro d
    unfold stageOp
    rw [if_pos rfl]
  rw [h1, h1]
  exact xorWords_involution key data hb hk hlen

/-- Witness for C10 on a concrete 4-byte region and key. -/
theorem eme_opcode1_involution_witness :
    stageOp 1 305419896 (stageOp 1 305419896 [16, 32, 48, 64]) = [16, 32, 48, 64] :=
  eme_opcode1_involution [16, 32, 48, 64] 305419896 (by decide) (by decide) (by decide)

/-- C9: every entry built by the index-slot parser has, from creation
onward, a windowInitPos that (when the frame size is nonzero) equals
(frameSize - rawInitPos) mod frameSize with rawInitPos the u16 at offset
0x42 of the decrypted slot, and an is_packed flag derived as
rawSize != storedSize rather than read from the slot. -/
theorem eme_entry_derived_fields (slot : List Nat) (e : EmEntry)
    (h : parseSlot slot = some e) :
    (e.lzss_frame_size ≠ 0 →
      (e.lzss_init_pos : Int)
        = ((e.lzss_frame_size : Int) - (u16le slot 0x42 : Int)) % (e.lzss_frame_size : Int))
    ∧ e.is_packed = (e.unpacked_size != e.size) := by
  unfold parseSlot at h
  by_cases hlen : 0x58 ≤ slot.length
  · rw [if_pos hlen] at h
    have he := Option.some.inj h
    subst he
    constructor
    · intro hfs
      simp only at hfs ⊢
      rw [if_pos hfs]
      have hnz : (u16le slot 0x40 : Int) ≠ 0 := Int.natCast_ne_zero.mpr hfs
      exact Int.toNat_of_nonneg (Int.emod_nonneg _ hnz)
    · rfl
  · rw [if_neg hlen] at h
    exact absurd h (by simp)

/-- Witness for C9 on a concrete decrypted slot with frame size 0x1000 and
raw init position 0x12, which parses to an entry with init position 0xFEE. -/
theorem eme_entry_derived_fields_witness :
    (sampleEntry.lzss_frame_size ≠ 0 →
      (sampleEntry.lzss_init_pos : Int)
        = ((sampleEntry.lzss_frame_size : Int) - (u16le sampleSlot 0x42 : Int))
            % (sampleEntry.lzss_frame_size : Int))
    ∧ sampleEntry.is_packed = (sampleEntry.unpacked_size != sampleEntry.size) :=
  eme_entry_derived_fields sampleSlot sampleEntry (by decide)

/-- C2 counterexample: the claim reads headerRawSize from the first 4 bytes
of the decrypted header, but the code reads it at header offset 4; a header
whose dwords at offsets 0 and 4 differ makes the code's output differ from
the claimed one.  Also, with segment1 decoding to 11 bytes (at least 10, as
the claim allows) the output length is 31, not exactly 30. -/
theorem eme_split_script_as_stated_counterexample :
    (0 < u32le [5, 0, 0, 0, 10, 0, 0, 0, 0, 0, 0, 0] 0
     ∧ u32le [5, 0, 0, 0, 10, 0, 0, 0, 0, 0, 0, 0] 0 < 30
     ∧ extractScriptCompressed [5, 0, 0, 0, 10, 0, 0, 0, 0, 0, 0, 0] (List.range 40) 40 30 id
         ≠ (id (((List.range 40).drop (u32le [5, 0, 0, 0, 10, 0, 0, 0, 0, 0, 0, 0] 0)).take
               (40 - u32le [5, 0, 0, 0, 10, 0, 0, 0, 0, 0, 0, 0] 0))).take
             (30 - u32le [5, 0, 0, 0, 10, 0, 0, 0, 0, 0, 0, 0] 0)
           ++ id ((List.range 40).take (u32le [5, 0, 0, 0, 10, 0, 0, 0, 0, 0, 0, 0] 0)))
    ∧ (u32le [10, 0, 0, 0, 10, 0, 0, 0, 0, 0, 0, 0] 0 = 10
       ∧ 20 ≤ ((fun l => l ++ [0])
           (((List.range 30).drop 10).take 20) : List Nat).length
       ∧ 10 ≤ ((fun l => l ++ [0]) ((List.range 30).take 10) : List Nat).length
       ∧ (extractScriptCompressed [10, 0, 0, 0, 10, 0, 0, 0, 0, 0, 0, 0] (List.range 30) 30 30
           (fun l => l ++ [0])).length ≠ 30) := by
  decide

/-- C2 as amended: headerRawSize is read at offset 4 of the decrypted header
(headerPackedSize at offset 0); under 0 < headerRawSize < rawSize the output
is the first rawSize - headerRawSize bytes of the decompressed tail segment
followed by the entire decompressed head segment; and in the instance with
headerRawSize 10, rawSize 30, decoded segment2 length at least 20 and
segment1 length exactly 10, the output has length exactly 30 and equals
segment2 up to 20 bytes followed by segment1. -/
theorem eme_split_script_reconstruction :
    (∀ (header fileTail : List Nat) (storedSize rawSize : Nat) (dec : List Nat → List Nat),
        0 < u32le header 4 → u32le header 4 < rawSize → u32le header 0 ≤ storedSize →
        extractScriptCompressed header fileTail storedSize rawSize dec
          = (dec ((fileTail.drop (u32le header 0)).take (storedSize - u32le header 0))).take
              (rawSize - u32le header 4)
            ++ dec (fileTail.take (u32le header 0)))
    ∧ (∀ (header fileTail : List Nat) (storedSize : Nat) (dec : List Nat → List Nat),
        u32le header 4 = 10 → u32le header 0 ≤ storedSize →
        20 ≤ (dec ((fileTail.drop (u32le header 0)).take (storedSize - u32le header 0))).length →
        (dec (fileTail.take (u32le header 0))).length = 10 →
        (extractScriptCompressed header fileTail storedSize 30 dec).length = 30
        ∧ extractScriptCompressed header fileTail storedSize 30 dec
            = (dec ((fileTail.drop (u32le header 0)).take (storedSize - u32le header 0))).take 20
              ++ dec (fileTail.take (u32le header 0))) := by
  constructor
  · intro header fileTail storedSize rawSize dec h0 h1 h2
    exact extractScriptCompressed_split header fileTail storedSize rawSize dec h0 h1 h2
  · intro header fileTail storedSize dec h10 hp h20 hlen1
    have hsplit := extractScriptCompressed_split header fileTail storedSize 30 dec
      (by omega) (by omega) hp
    rw [h10] at hsplit
    refine ⟨?_, hsplit⟩
    rw [hsplit]
    simp only [List.length_append, List.length_take]
    omega

/-- Witness for the amended C2 at concrete headers, file bytes and identity
decompressor. -/
theorem eme_split_script_reconstruction_witness :
    extractScriptCompressed [4, 0, 0, 0, 10, 0, 0, 0, 0, 0, 0, 0] (List.range 40) 40 30 id
      = (id (((List.range 40).drop 4).take 36)).take 20 ++ id ((List.range 40).take 4)
    ∧ (extractScriptCompressed [10, 0, 0, 0, 10, 0, 0, 0, 0, 0, 0, 0] (List.range 30) 30 30
        id).length = 30 :=
  ⟨eme_split_script_reconstruction.1 [4, 0, 0, 0, 10, 0, 0, 0, 0, 0, 0, 0] (List.range 40)
      40 30 id (by decide) (by decide) (by decide),
   (eme_split_script_reconstruction.2 [10, 0, 0, 0, 10, 0, 0, 0, 0, 0, 0, 0] (List.range 30)
      30 id (by decide) (by decide) (by decide) (by decide)).1⟩

/-- C7: the decoder settings are a 4096-byte window pre-filled with byte 0
and a write cursor starting at 0xFEE; both decoders process each control
byte's 8 bits low to high, a set bit copying a literal into output and
window, and a clear bit reading lo, hi, taking history position
((hi AND 0xF0) shifted left 4) OR lo and copy length 3 + (hi AND 0x0F), each
copied byte written back into the window; the stream with control byte 7,
three literals 1 2 3, then a match lo 0 hi 2 (length 5 at offset 0) against
the zero-filled frame decodes to the three literals followed by five zero
bytes under both decoders. -/
theorem lzss_sliding_window_decode :
    lzssSettings.frame_size = 0x1000
    ∧ lzssSettings.frame_fill = 0
    ∧ lzssSettings.frame_init_pos = 0xFEE
    ∧ coUnpack [7, 1, 2, 3, 0, 2] = [1, 2, 3, 0, 0, 0, 0, 0]
    ∧ readerUnpack [7, 1, 2, 3, 0, 2] 6 8 = [1, 2, 3, 0, 0, 0, 0, 0] := by
  decide

/-- The reader's match-copy loop never changes the output buffer length. -/
theorem rdCopy_output_length : ∀ (n off : Nat) (st : RdState),
    ((rdCopy n off st).output).length = st.output.length
  | 0, _, _ => rfl
  | n + 1, off, st => by
      unfold rdCopy
      split_ifs with h
      · rfl
      · rw [rdCopy_output_length n _ _]
        simp

/-- The reader's bit loop never changes the output buffer length. -/
theorem rdBits_output_length : ∀ (bits : List Nat) (ctl : Nat) (st : RdState),
    (((rdBits bits ctl st).1).output).length = st.output.length
  | [], _, _ => rfl
  | bit :: bits, ctl, st => by
      unfold rdBits
      by_cases h1 : st.output.length ≤ st.dst
      · rw [if_pos h1]
      · rw [if_neg h1]
        by_cases h2 : ctl &&& (1 <<< bit) ≠ 0
        · rw [if_pos h2]
          by_cases h3 : st.remaining = 0
          · rw [if_pos h3]
          · rw [if_neg h3]
            cases hinp : st.inp with
            | nil => rfl
            | cons b inp2 =>
                rw [rdBits_output_length bits ctl _]
                simp
        · rw [if_neg h2]
          by_cases h4 : st.remaining < 2
          · rw [if_pos h4]
          · rw [if_neg h4]
            cases hinp : st.inp with
            | nil => rfl
            | cons lo rest =>
                cases rest with
                | nil => rfl
                | cons hi inp2 =>
                    rw [rdBits_output_length bits ctl _, rdCopy_output_length]

/-- The reader's outer loop returns a buffer of the same length as the
output buffer it starts from. -/
theorem rdLoop_output_length : ∀ (fuel : Nat) (st : RdState),
    (rdLoop fuel st).length = st.output.length
  | 0, _ => rfl
  | fuel + 1, st => by
      unfold rdLoop
      by_cases h : st.remaining = 0
      · rw [if_pos h]
      · rw [if_neg h]
        cases hinp : st.inp with
        | nil => rfl
        | cons ctl inp2 =>
            dsimp only
            rcases hbits : rdBits [0, 1, 2, 3, 4, 5, 6, 7] ctl
                ⟨inp2, st.remaining - 1, st.frame, st.framePos, st.output, st.dst⟩
              with ⟨st2, flag⟩
            have h2 := rdBits_output_length [0, 1, 2, 3, 4, 5, 6, 7] ctl
              ⟨inp2, st.remaining - 1, st.frame, st.framePos, st.output, st.dst⟩
            rw [hbits] at h2
            cases flag
            · simpa using h2
            · rw [rdLoop_output_length fuel st2]
              simpa using h2

/-- Reduction of the coroutine bit loop on a set bit with empty input. -/
theorem coBits_lit_nil (bit : Nat) (bits : List Nat) (ctl : Nat) (frame : List Nat)
    (pos : Nat) (out : List Nat) (hbit : ctl &&& (1 <<< bit) ≠ 0) :
    coBits (bit :: bits) ctl ⟨[], frame, pos, out⟩ = (⟨[], frame, pos, out⟩, true) := by
  unfold coBits
  rw [if_pos hbit]

/-- Reduction of the coroutine bit loop on a set bit with available input. -/
theorem coBits_lit_cons (bit : Nat) (bits : List Nat) (ctl b : Nat) (inp frame : List Nat)
    (pos : Nat) (out : List Nat) (hbit : ctl &&& (1 <<< bit) ≠ 0) :
    coBits (bit :: bits) ctl ⟨b :: inp, frame, pos, out⟩
      = coBits bits ctl ⟨inp, frame.set (pos &&& coFrameMask) b, pos + 1, out ++ [b]⟩ := by
  conv_lhs => unfold coBits
  rw [if_pos hbit]

/-- Reduction of the coroutine bit loop on a clear bit with empty input. -/
theorem coBits_match_nil (bit : Nat) (bits : List Nat) (ctl : Nat) (frame : List Nat)
    (pos : Nat) (out : List Nat) (hbit : ¬ ctl &&& (1 <<< bit) ≠ 0) :
    coBits (bit :: bits) ctl ⟨[], frame, pos, out⟩ = (⟨[], frame, pos, out⟩, true) := by
  unfold coBits
  rw [if_neg hbit]

/-- Reduction of the coroutine bit loop on a clear bit with one input byte:
the lo byte is read but the hi read fails, ending decoding. -/
theorem coBits_match_one (bit : Nat) (bits : List Nat) (ctl lo : Nat) (frame : List Nat)
    (pos : Nat) (out : List Nat) (hbit : ¬ ctl &&& (1 <<< bit) ≠ 0) :
    coBits (bit :: bits) ctl ⟨[lo], frame, pos, out⟩ = (⟨[lo], frame, pos, out⟩, true) := by
  unfold coBits
  rw [if_neg hbit]

/-- Reduction of the coroutine bit loop on a clear bit with a full match
pair available. -/
theorem coBits_match_cons (bit : Nat) (bits : List Nat) (ctl lo hi : Nat)
    (inp frame : List Nat) (pos : Nat) (out : List Nat)
    (hbit : ¬ ctl &&& (1 <<< bit) ≠ 0) :
    coBits (bit :: bits) ctl ⟨lo :: hi :: inp, frame, pos, out⟩
      = coBits bits ctl
          ⟨inp,
           (coCopy (3 + (hi &&& 0xF)) (((hi &&& 0xF0) <<< 4) ||| lo) frame pos out).1,
           (coCopy (3 + (hi &&& 0xF)) (((hi &&& 0xF0) <<< 4) ||| lo) frame pos out).2.1,
           (coCopy (3 + (hi &&& 0xF)) (((hi &&& 0xF0) <<< 4) ||| lo) frame pos out).2.2⟩ := by
  conv_lhs => unfold coBits
  rw [if_neg hbit]

/-- The coroutine copy loop only appends to the output. -/
theorem coCopy_out_ex : ∀ (n off : Nat) (frame : List Nat) (pos : Nat) (out : List Nat),
    ∃ r, out ++ r = (coCopy n off frame pos out).2.2
  | 0, _, _, _, out => ⟨[], by simp [coCopy]⟩
  | n + 1, off, frame, pos, out => by
      obtain ⟨r, hr⟩ := coCopy_out_ex n (off + 1)
        (frame.set (pos &&& coFrameMask) (frame.getD (off &&& coFrameMask) 0)) (pos + 1)
        (out ++ [frame.getD (off &&& coFrameMask) 0])
      refine ⟨frame.getD (off &&& coFrameMask) 0 :: r, ?_⟩
      unfold coCopy
      rw [← hr]
      simp

/-- The coroutine bit loop only appends to the output. -/
theorem coBits_out_ex : ∀ (bits : List Nat) (ctl : Nat) (inp frame : List Nat) (pos : Nat)
    (out : List Nat), ∃ r, out ++ r = (coBits bits ctl ⟨inp, frame, pos, out⟩).1.out
  | [], _, _, _, _, out => ⟨[], by simp [coBits]⟩
  | bit :: bits, ctl, inp, frame, pos, out => by
      by_cases hbit : ctl &&& (1 <<< bit) ≠ 0
      · cases inp with
        | nil => exact ⟨[], by rw [coBits_lit_nil bit bits ctl frame pos out hbit]; simp⟩
        | cons b inp2 =>
            rw [coBits_lit_cons bit bits ctl b inp2 frame pos out hbit]
            obtain ⟨r, hr⟩ := coBits_out_ex bits ctl inp2
              (frame.set (pos &&& coFrameMask) b) (pos + 1) (out ++ [b])
            exact ⟨b :: r, by rw [← hr]; simp⟩
      · cases inp with
        | nil => exact ⟨[], by rw [coBits_match_nil bit bits ctl frame pos out hbit]; simp⟩
        | cons lo rest =>
            cases rest with
            | nil => exact ⟨[], by rw [coBits_match_one bit bits ctl lo frame pos out hbit]; simp⟩
            | cons hi inp2 =>
                rw [coBits_match_cons bit bits ctl lo hi inp2 frame pos out hbit]
                obtain ⟨r1, hr1⟩ := coCopy_out_ex (3 + (hi &&& 0xF))
                  (((hi &&& 0xF0) <<< 4) ||| lo) frame pos out
                obtain ⟨r2, hr2⟩ := coBits_out_ex bits ctl inp2
                  (coCopy (3 + (hi &&& 0xF)) (((hi &&& 0xF0) <<< 4) ||| lo) frame pos out).1
                  (coCopy (3 + (hi &&& 0xF)) (((hi &&& 0xF0) <<< 4) ||| lo) frame pos out).2.1
                  (coCopy (3 + (hi &&& 0xF)) (((hi &&& 0xF0) <<< 4) ||| lo) frame pos out).2.2
                refine ⟨r1 ++ r2, ?_⟩
                rw [← List.append_assoc, hr1, hr2]

/-- The coroutine outer loop only appends to the output. -/
theorem coLoop_out_ex : ∀ (fuel : Nat) (inp frame : List Nat) (pos : Nat) (out : List Nat),
    ∃ r, out ++ r = coLoop fuel ⟨inp, frame, pos, out⟩
  | 0, _, _, _, out => ⟨[], by simp [coLoop]⟩
  | fuel + 1, inp, frame, pos, out => by
      cases inp with
      | nil => exact ⟨[], by simp [coLoop]⟩
      | cons ctl inp2 =>
          unfold coLoop
          dsimp only
          obtain ⟨r1, hr1⟩ := coBits_out_ex [0, 1, 2, 3, 4, 5, 6, 7] ctl inp2 frame pos out
          rcases hco : coBits [0, 1, 2, 3, 4, 5, 6, 7] ctl ⟨inp2, frame, pos, out⟩
            with ⟨⟨i2, f2, p2, o2⟩, flag⟩
          rw [hco] at hr1
          cases flag
          · obtain ⟨r2, hr2⟩ := coLoop_out_ex fuel i2 f2 p2 o2
            refine ⟨r1 ++ r2, ?_⟩
            rw [← List.append_assoc, hr1]
            simpa using hr2
          · exact ⟨r1, hr1⟩

/-- The coroutine bit loop never lengthens the remaining input. -/
theorem coBits_inp_le : ∀ (bits : List Nat) (ctl : Nat) (inp frame : List Nat) (pos : Nat)
    (out : List Nat), ((coBits bits ctl ⟨inp, frame, pos, out⟩).1.inp).length ≤ inp.length
  | [], _, _, _, _, _ => le_refl _
  | bit :: bits, ctl, inp, frame, pos, out => by
      by_cases hbit : ctl &&& (1 <<< bit) ≠ 0
      · cases inp with
        | nil => rw [coBits_lit_nil bit bits ctl frame pos out hbit]
        | cons b inp2 =>
            rw [coBits_lit_cons bit bits ctl b inp2 frame pos out hbit]
            have := coBits_inp_le bits ctl inp2 (frame.set (pos &&& coFrameMask) b)
              (pos + 1) (out ++ [b])
            simp only [List.length_cons]
            omega
      · cases inp with
        | nil => rw [coBits_match_nil bit bits ctl frame pos out hbit]
        | cons lo rest =>
            cases rest with
            | nil => rw [coBits_match_one bit bits ctl lo frame pos out hbit]
            | cons hi inp2 =>
                rw [coBits_match_cons bit bits ctl lo hi inp2 frame pos out hbit]
                have := coBits_inp_le bits ctl inp2
                  (coCopy (3 + (hi &&& 0xF)) (((hi &&& 0xF0) <<< 4) ||| lo) frame pos out).1
                  (coCopy (3 + (hi &&& 0xF)) (((hi &&& 0xF0) <<< 4) ||| lo) frame pos out).2.1
                  (coCopy (3 + (hi &&& 0xF)) (((hi &&& 0xF0) <<< 4) ||| lo) frame pos out).2.2
                simp only [List.length_cons]
                omega

/-- The coroutine outer loop on an empty input returns the output as is. -/
theorem coLoop_nil (fuel : Nat) (frame : List Nat) (pos : Nat) (out : List Nat) :
    coLoop fuel ⟨[], frame, pos, out⟩ = out := by
  cases fuel
  · rfl
  · rfl

/-- Running the coroutine bit loop on a truncated input either makes
identical progress (same frame, cursor and output, with the leftover input
still a truncation of the full run's leftover) or stops early on exhaustion
with an output the full run extends. -/
theorem coBits_take_dichotomy : ∀ (bits : List Nat) (ctl k : Nat) (inp frame : List Nat)
    (pos : Nat) (out : List Nat),
    (∃ k2,
      (coBits bits ctl ⟨inp.take k, frame, pos, out⟩).1.inp
        = ((coBits bits ctl ⟨inp, frame, pos, out⟩).1.inp).take k2
      ∧ (coBits bits ctl ⟨inp.take k, frame, pos, out⟩).1.frame
        = (coBits bits ctl ⟨inp, frame, pos, out⟩).1.frame
      ∧ (coBits bits ctl ⟨inp.take k, frame, pos, out⟩).1.framePos
        = (coBits bits ctl ⟨inp, frame, pos, out⟩).1.framePos
      ∧ (coBits bits ctl ⟨inp.take k, frame, pos, out⟩).1.out
        = (coBits bits ctl ⟨inp, frame, pos, out⟩).1.out
      ∧ (coBits bits ctl ⟨inp.take k, frame, pos, out⟩).2
        = (coBits bits ctl ⟨inp, frame, pos, out⟩).2)
    ∨ ((coBits bits ctl ⟨inp.take k, frame, pos, out⟩).2 = true
       ∧ ∃ r, (coBits bits ctl ⟨inp.take k, frame, pos, out⟩).1.out ++ r
           = (coBits bits ctl ⟨inp, frame, pos, out⟩).1.out)
  | [], ctl, k, inp, frame, pos, out => by
      left
      exact ⟨k, by simp [coBits], by simp [coBits], by simp [coBits], by simp [coBits],
        by simp [coBits]⟩
  | bit :: bits, ctl, k, inp, frame, pos, out => by
      by_cases hbit : ctl &&& (1 <<< bit) ≠ 0
      · cases inp with
        | nil =>
            simp only [List.take_nil]
            rw [coBits_lit_nil bit bits ctl frame pos out hbit]
            refine Or.inl ⟨0, ?_, ?_, ?_, ?_, ?_⟩ <;> simp
        | cons b inp2 =>
            cases k with
            | zero =>
                right
                simp only [List.take_zero]
                rw [coBits_lit_nil bit bits ctl frame pos out hbit]
                refine ⟨rfl, ?_⟩
                rw [coBits_lit_cons bit bits ctl b inp2 frame pos out hbit]
                obtain ⟨r, hr⟩ := coBits_out_ex bits ctl inp2
                  (frame.set (pos &&& coFrameMask) b) (pos + 1) (out ++ [b])
                exact ⟨b :: r, by rw [← hr]; simp⟩
            | succ k2 =>
                simp only [List.take_succ_cons]
                rw [coBits_lit_cons bit bits ctl b (inp2.take k2) frame pos out hbit,
                  coBits_lit_cons bit bits ctl b inp2 frame pos out hbit]
                exact coBits_take_dichotomy bits ctl k2 inp2
                  (frame.set (pos &&& coFrameMask) b) (pos + 1) (out ++ [b])
      · cases inp with
        | nil =>
            simp only [List.take_nil]
            rw [coBits_match_nil bit bits ctl frame pos out hbit]
            refine Or.inl ⟨0, ?_, ?_, ?_, ?_, ?_⟩ <;> simp
        | cons lo rest =>
            cases rest with
            | nil =>
                cases k with
                | zero =>
                    simp only [List.take_zero]
                    rw [coBits_match_nil bit bits ctl frame pos out hbit,
                      coBits_match_one bit bits ctl lo frame pos out hbit]
                    refine Or.inl ⟨0, ?_, ?_, ?_, ?_, ?_⟩ <;> simp
                | succ k2 =>
                    simp only [List.take_succ_cons, List.take_nil]
                    rw [coBits_match_one bit bits ctl lo frame pos out hbit]
                    refine Or.inl ⟨1, ?_, ?_, ?_, ?_, ?_⟩ <;> simp
            | cons hi inp2 =>
                cases k with
                | zero =>
                    right
                    simp only [List.take_zero]
                    rw [coBits_match_nil bit bits ctl frame pos out hbit]
                    refine ⟨rfl, ?_⟩
                    rw [coBits_match_cons bit bits ctl lo hi inp2 frame pos out hbit]
                    obtain ⟨r1, hr1⟩ := coCopy_out_ex (3 + (hi &&& 0xF))
                      (((hi &&& 0xF0) <<< 4) ||| lo) frame pos out
                    obtain ⟨r2, hr2⟩ := coBits_out_ex bits ctl inp2
                      (coCopy (3 + (hi &&& 0xF)) (((hi &&& 0xF0) <<< 4) ||| lo) frame pos out).1
                      (coCopy (3 + (hi &&& 0xF)) (((hi &&& 0xF0) <<< 4) ||| lo) frame pos out).2.1
                      (coCopy (3 + (hi &&& 0xF)) (((hi &&& 0xF0) <<< 4) ||| lo) frame pos out).2.2
                    exact ⟨r1 ++ r2, by rw [← List.append_assoc, hr1, hr2]⟩
                | succ k2 =>
                    cases k2 with
                    | zero =>
                        right
                        simp only [List.take_succ_cons, List.take_zero]
                        rw [coBits_match_one bit bits ctl lo frame pos out hbit]
                        refine ⟨rfl, ?_⟩
                        rw [coBits_match_cons bit bits ctl lo hi inp2 frame pos out hbit]
                        obtain ⟨r1, hr1⟩ := coCopy_out_ex (3 + (hi &&& 0xF))
                          (((hi &&& 0xF0) <<< 4) ||| lo) frame pos out
                        obtain ⟨r2, hr2⟩ := coBits_out_ex bits ctl inp2
                          (coCopy (3 + (hi &&& 0xF)) (((hi &&& 0xF0) <<< 4) ||| lo)
                            frame pos out).1
                          (coCopy (3 + (hi &&& 0xF)) (((hi &&& 0xF0) <<< 4) ||| lo)
                            frame pos out).2.1
                          (coCopy (3 + (hi &&& 0xF)) (((hi &&& 0xF0) <<< 4) ||| lo)
                            frame pos out).2.2
                        exact ⟨r1 ++ r2, by rw [← List.append_assoc, hr1, hr2]⟩
                    | succ k3 =>
                        simp only [List.take_succ_cons]
                        rw [coBits_match_cons bit bits ctl lo hi (inp2.take k3)
                            frame pos out hbit,
                          coBits_match_cons bit bits ctl lo hi inp2 frame pos out hbit]
                        exact coBits_take_dichotomy bits ctl k3 inp2
                          (coCopy (3 + (hi &&& 0xF)) (((hi &&& 0xF0) <<< 4) ||| lo)
                            frame pos out).1
                          (coCopy (3 + (hi &&& 0xF)) (((hi &&& 0xF0) <<< 4) ||| lo)
                            frame pos out).2.1
                          (coCopy (3 + (hi &&& 0xF)) (((hi &&& 0xF0) <<< 4) ||| lo)
                            frame pos out).2.2

/-- One step of the coroutine outer loop on a nonempty input. -/
theorem coLoop_cons (fuel ctl : Nat) (inp2 frame : List Nat) (pos : Nat) (out : List Nat) :
    coLoop (fuel + 1) ⟨ctl :: inp2, frame, pos, out⟩
      = (if (coBits [0, 1, 2, 3, 4, 5, 6, 7] ctl ⟨inp2, frame, pos, out⟩).2
         then (coBits [0, 1, 2, 3, 4, 5, 6, 7] ctl ⟨inp2, frame, pos, out⟩).1.out
         else coLoop fuel (coBits [0, 1, 2, 3, 4, 5, 6, 7] ctl ⟨inp2, frame, pos, out⟩).1) := by
  conv_lhs => unfold coLoop
  dsimp only
  rcases hco : coBits [0, 1, 2, 3, 4, 5, 6, 7] ctl ⟨inp2, frame, pos, out⟩ with ⟨st2, flag⟩
  cases flag
  · rfl
  · rfl

/-- Decoding a truncated input yields an output the full decode extends:
the loop-level prefix property. -/
theorem coLoop_take_ex : ∀ (f2 f1 k : Nat) (inp frame : List Nat) (pos : Nat) (out : List Nat),
    (inp.take k).length ≤ f1 → inp.length ≤ f2 →
    ∃ r, coLoop f1 ⟨inp.take k, frame, pos, out⟩ ++ r = coLoop f2 ⟨inp, frame, pos, out⟩
  | 0, f1, k, inp, frame, pos, out => by
      intro h1 h2
      have hnil : inp = [] := List.length_eq_zero.mp (Nat.le_zero.mp h2)
      subst hnil
      simp only [List.take_nil, coLoop_nil]
      exact ⟨[], by simp⟩
  | f2 + 1, f1, k, inp, frame, pos, out => by
      intro h1 h2
      cases inp with
      | nil =>
          simp only [List.take_nil, coLoop_nil]
          exact ⟨[], by simp⟩
      | cons ctl inp2 =>
          cases k with
          | zero =>
              simp only [List.take_zero, coLoop_nil]
              exact coLoop_out_ex (f2 + 1) (ctl :: inp2) frame pos out
          | succ k2 =>
              cases f1 with
              | zero => simp at h1
              | succ f1b =>
                  simp only [List.take_succ_cons]
                  rw [coLoop_cons f1b ctl (inp2.take k2) frame pos out,
                    coLoop_cons f2 ctl inp2 frame pos out]
                  have hdi := coBits_take_dichotomy [0, 1, 2, 3, 4, 5, 6, 7] ctl k2 inp2
                    frame pos out
                  have hlent := coBits_inp_le [0, 1, 2, 3, 4, 5, 6, 7] ctl (inp2.take k2)
                    frame pos out
                  have hlenf := coBits_inp_le [0, 1, 2, 3, 4, 5, 6, 7] ctl inp2 frame pos out
                  rcases ht : coBits [0, 1, 2, 3, 4, 5, 6, 7] ctl ⟨inp2.take k2, frame, pos, out⟩
                    with ⟨⟨ti, tf, tp, tou⟩, tflag⟩
                  rcases hf : coBits [0, 1, 2, 3, 4, 5, 6, 7] ctl ⟨inp2, frame, pos, out⟩
                    with ⟨⟨fi, ff, fp, fo⟩, fflag⟩
                  rw [ht, hf] at hdi
                  rw [ht] at hlent
                  rw [hf] at hlenf
                  simp only at hdi hlent hlenf
                  simp only [List.take_succ_cons, List.length_cons] at h1 h2
                  rcases hdi with ⟨k2b, e1, e2, e3, e4, e5⟩ | ⟨hstop, r1, hr1⟩
                  · subst e1
                    subst e2
                    subst e3
                    subst e4
                    subst e5
                    cases tflag
                    · exact coLoop_take_ex f2 f1b k2b fi tf tp tou (by omega) (by omega)
                    · exact ⟨[], by simp⟩
                  · subst hstop
                    cases fflag
                    · obtain ⟨r2, hr2⟩ := coLoop_out_ex f2 fi ff fp fo
                      refine ⟨r1 ++ r2, ?_⟩
                      show tou ++ (r1 ++ r2) = coLoop f2 ⟨fi, ff, fp, fo⟩
                      rw [← List.append_assoc, hr1, hr2]
                    · exact ⟨r1, by simpa using hr1⟩

/-- C8: the length-bounded decoder's output buffer has exactly the requested
length no matter the input - it stops mid control-byte group or mid match
copy and never writes outside the buffer, even with unread input left; and
the input-exhaustion decoder ends silently wherever the input runs out,
returning the output produced so far, i.e. decoding any truncation of a
stream yields an output the full decode extends. -/
theorem lzss_decode_safety :
    (∀ (input : List Nat) (size outLen : Nat), (readerUnpack input size outLen).length = outLen)
    ∧ ∀ (input : List Nat) (k : Nat),
        ∃ rest, coUnpack (input.take k) ++ rest = coUnpack input := by
  constructor
  · intro input size outLen
    unfold readerUnpack
    rw [rdLoop_output_length]
    simp
  · intro input k
    unfold coUnpack
    exact coLoop_take_ex input.length (input.take k).length k input
      (List.replicate lzssSettings.frame_size lzssSettings.frame_fill)
      lzssSettings.frame_init_pos [] (le_refl _) (le_refl _)
